import Mathlib

/-!
Verification of the cotopaxi `amplifier_detector` Metasploit wrapper
(`integrations/metasploit/modules/auxiliary/cotopaxi/amplifier_detector.py`).

The wrapper's `run(args)` invokes the external cotopaxi engine, captures its
textual report, and parses the section between the `"Active endpoints:"` and
`"Total number"` markers into `(ip, port, protocol, transport)` service
records, which it forwards to `module.report_service`.

Strings are embedded as `List Char`; the Python string primitives used by the
source (`str.find`, slicing, `str.splitlines`, `str.split`, `str.strip`,
`str.lower`) are given faithful executable models below.
-/

namespace Amplifier

/-- Character list of a string literal. -/
def toL (s : String) : List Char := s.data

/-! ## Python string primitives -/

/-- Index of the first occurrence of `sub` in `s` (0-based), if any. -/
def strFind (sub : List Char) : List Char → Option Nat
  | [] => if sub <+: ([] : List Char) then some 0 else none
  | c :: rest =>
    if sub <+: c :: rest then some 0
    else (strFind sub rest).map (· + 1)

/-- Whether `sub` occurs as a contiguous substring of `s`. -/
def occurs (sub s : List Char) : Bool := (strFind sub s).isSome

/-- Whether `sub` occurs in `s` at some index `≥ i`. -/
def occursFrom (sub s : List Char) (i : Nat) : Bool := occurs sub (s.drop i)

/-- Python `s.find(sub, start)`: lowest index `≥ start` where `sub` occurs,
`-1` when there is none.  A negative `start` counts from the end and is
clamped to `0`, as in CPython. -/
def pyFind (s sub : List Char) (start : Int) : Int :=
  let st : Nat := if start < 0 then ((s.length : Int) + start).toNat else start.toNat
  if st > s.length then -1
  else
    match strFind sub (s.drop st) with
    | some i => (st : Int) + i
    | none => -1

/-- Normalize a Python slice index against a length (negative counts from the
end; results clamped into `[0, len]`). -/
def pyIdx (len : Nat) (i : Int) : Nat :=
  if i < 0 then ((len : Int) + i).toNat else min i.toNat len

/-- Python slice `s[a:b]`. -/
def pySlice (s : List Char) (a b : Int) : List Char :=
  (s.take (pyIdx s.length b)).drop (pyIdx s.length a)

/-- Collapses each `"\r\n"` pair into a single `'\n'`, so that it counts as
one line terminator. -/
def normNL : List Char → List Char
  | [] => []
  | '\r' :: '\n' :: rest => '\n' :: normNL rest
  | c :: rest => c :: normNL rest

/-- Helper for `splitlines`: accumulates the current line in reverse and
splits at each `'\n'` or (lone) `'\r'`. -/
def splitlinesAux (acc : List Char) : List Char → List (List Char)
  | [] => if acc.isEmpty then [] else [acc.reverse]
  | c :: rest =>
    if c = '\n' ∨ c = '\r' then acc.reverse :: splitlinesAux [] rest
    else splitlinesAux (c :: acc) rest

/-- Python `s.splitlines()` for the `\n`, `\r\n` and `\r` line terminators
(the only ones that can appear in cotopaxi reports): splits at terminators
and does not produce a final empty line for a trailing terminator. -/
def splitlines (s : List Char) : List (List Char) := splitlinesAux [] (normNL s)

/-- Helper for `pySplit`: accumulates the current piece in reverse. -/
def pySplitAux (sep : Char) (acc : List Char) : List Char → List (List Char)
  | [] => [acc.reverse]
  | c :: rest =>
    if c = sep then acc.reverse :: pySplitAux sep [] rest
    else pySplitAux sep (c :: acc) rest

/-- Python `s.split(sep)` for a one-character separator, no maxsplit:
always returns at least one (possibly empty) piece. -/
def pySplit (sep : Char) (s : List Char) : List (List Char) := pySplitAux sep [] s

/-- Python `s.strip(chars)`: removes all leading and trailing characters
belonging to `cs`. -/
def pyStrip (cs : List Char) (s : List Char) : List Char :=
  ((s.dropWhile (cs.contains ·)).reverse.dropWhile (cs.contains ·)).reverse

/-- Python `s.lower()` restricted to ASCII, which covers every protocol and
transport identifier handled by the wrapper. -/
def asciiLower (s : List Char) : List Char := s.map Char.toLower

/-! ## Data model of the wrapper -/

/-- One `module.report_service(service_ip, proto=..., port=..., name=...)`
call made by the wrapper. -/
structure ServiceRecord where
  ip : List Char
  port : List Char
  name : List Char
  proto : List Char
deriving DecidableEq, Repr

/-- The distinct exception families that can abort the parsing loop and reach
the wrapper's broad `except Exception` handler. -/
inductive RunErr where
  /-- `raise Exception("Incorrect format of Cotopaxi response!")` -/
  | formatErr
  /-- `IndexError` from `service[1]` when a token has no colon -/
  | indexErr
  /-- `AttributeError`/`KeyError` from
  `PROTOCOL_TESTERS[getattr(Protocol, proto_name)]` -/
  | lookupErr
deriving DecidableEq, Repr

/-- Modelled from the spec: the ProtocolRegistry
(`cotopaxi.common_utils.Protocol` together with
`cotopaxi.cotopaxi_tester.PROTOCOL_TESTERS`, both owned by the external
cotopaxi package) is a read-only table mapping each registered protocol
identifier to the `__name__` of its transport-protocol class.  It is embedded
as an association list of `(identifier, transport name)` pairs. -/
def Registry : Type := List (List Char × List Char)

/-- `PROTOCOL_TESTERS[getattr(Protocol, name)].transport_protocol().__name__`:
Python attribute access is an exact, case-sensitive string match on the
member name, so the lookup is an exact association-list lookup; `none` models
the `AttributeError`/`KeyError` raised on a miss. -/
def lookupTransport : Registry → List Char → Option (List Char)
  | [], _ => none
  | (n, t) :: rest, name => if n = name then some t else lookupTransport rest name

/-- The literal `"Active endpoints:"` start marker. -/
def markerA : List Char := toL "Active endpoints:"

/-- The literal `"Total number"` end marker. -/
def markerT : List Char := toL "Total number"

/-- The literal `"Protocol."` prefix of a service-group line. -/
def protocolDot : List Char := toL "Protocol."

/-- The characters stripped from each address token: `service.strip(" '")`. -/
def stripChars : List Char := [' ', '\'']

/-- The inner loop over one group line's comma-separated tokens:
`service.strip(" '")`, `service.split(":")`, `service[0]`/`service[1]`,
transport lookup, then `module.report_service`.  Returns the records emitted
before any exception together with the exception (if one occurred): records
already passed to `report_service` are not rolled back when a later token
raises. -/
def processTokens (reg : Registry) (protoName : List Char) :
    List (List Char) → List ServiceRecord × Option RunErr
  | [] => ([], none)
  | tok :: rest =>
    match pySplit ':' (pyStrip stripChars tok) with
    | ip :: port :: _ =>
      match lookupTransport reg protoName with
      | some tr =>
        let r : ServiceRecord :=
          ⟨ip, port, asciiLower protoName, asciiLower tr⟩
        let (rs, e) := processTokens reg protoName rest
        (r :: rs, e)
      | none => ([], some RunErr.lookupErr)
    | _ => ([], some RunErr.indexErr)

/-- Processing of one candidate service-group line:
`name_start = line.find("Protocol.")`, `name_end = line.find(":", name_start)`,
`proto_name = line[name_start + 9 : name_end]`,
`services = line[name_end + 3 : -1].split(",")`, then the token loop. -/
def processLine (reg : Registry) (line : List Char) :
    List ServiceRecord × Option RunErr :=
  let nameStart := pyFind line protocolDot 0
  let nameEnd := pyFind line [':'] nameStart
  let protoName := pySlice line (nameStart + 9) nameEnd
  let servicesStr := pySlice line (nameEnd + 3) (-1)
  processTokens reg protoName (pySplit ',' servicesStr)

/-- The outer loop over candidate lines; a line that raises stops the whole
loop (the exception propagates to the broad handler), keeping the records
reported so far. -/
def processLines (reg : Registry) :
    List (List Char) → List ServiceRecord × Option RunErr
  | [] => ([], none)
  | l :: rest =>
    match processLine reg l with
    | (rs, some e) => (rs, some e)
    | (rs, none) =>
      let (rs', e) := processLines reg rest
      (rs ++ rs', e)

/-- The candidate service-group lines computed by the wrapper:
`cotopaxi_output[start_index + 2 : end_index - 1].splitlines()[1:]` with
`start_index = output.find("Active endpoints:")` and
`end_index = output.find("Total number", start_index)`. -/
def protocolServices (out : List Char) : List (List Char) :=
  let startIndex := pyFind out markerA 0
  let endIndex := pyFind out markerT startIndex
  (splitlines (pySlice out (startIndex + 2) (endIndex - 1))).drop 1

/-- The whole parse-and-report phase of `run` (everything inside the `try`
after the engine call): yields the records passed to `report_service` and the
exception, if any, that reached the broad handler. -/
def parseAndReport (reg : Registry) (out : List Char) :
    List ServiceRecord × Option RunErr :=
  let startIndex := pyFind out markerA 0
  let endIndex := pyFind out markerT startIndex
  if startIndex < 0 ∨ endIndex < 0 then ([], some RunErr.formatErr)
  else processLines reg (protocolServices out)

/-- The `args` mapping handed to `run`: presence/absence of the `"RHOSTS"`
and `"RPORTS"` keys, with their string values. -/
structure Args where
  rhosts : Option (List Char)
  rports : Option (List Char)

/-- The externally observable effects of one `run` call. -/
structure RunResult where
  /-- the argument lists the external engine was invoked with -/
  engineCalls : List (List (List Char))
  /-- the records passed to `module.report_service`, in order -/
  reported : List ServiceRecord
  /-- the number of error-severity log calls
  (`logging.error` and `module.log(..., "error")`) -/
  errorLogs : Nat
deriving DecidableEq, Repr

/-- Modelled from the spec: `common_utils.scrap_output(main, parameters)` is
not in this repository; per the spec the external engine is a black box that
is invoked with the positional-argument list and communicates only via its
captured textual output, or raises.  It is embedded as an arbitrary function
from the argument list to output-or-exception. -/
def Engine : Type := List (List Char) → Except Unit (List Char)

/-- The wrapper's `run(args)`.  `none` models an exception escaping `run`
(only possible for the `args["RHOSTS"]` lookup performed before the `try`
block); `some r` is a normal return with observable effects `r`.
The branches mirror the source: the `DEPENDENCIES_MISSING` short-circuit
(one `logging.error`), the parameter list `[RHOSTS]` plus `RPORTS` when
present and non-empty, the engine call, and the `try`/`except` body with its
error-severity logs (`module.log(cotopaxi_output, "error")`, one
`"Found service"` log per record, and two logs in the `except` branch). -/
def run (deps : Bool) (reg : Registry) (engine : Engine) (args : Args) :
    Option RunResult :=
  match args.rhosts with
  | none => none
  | some host =>
    if deps then some ⟨[], [], 1⟩
    else
      let parameters : List (List Char) :=
        host :: (match args.rports with
          | some p => if p = [] then [] else [p]
          | none => [])
      match engine parameters with
      | Except.error _ => some ⟨[parameters], [], 2⟩
      | Except.ok out =>
        let (records, err) := parseAndReport reg out
        some ⟨[parameters], records,
          1 + records.length + (if err.isSome then 2 else 0)⟩

/-! ## Well-formed report constructors

These build the raw reports described by the spec: a `"Active endpoints:"`
marker line, service-group lines `Protocol.<NAME>: ['<ip>:<port>', ...]`,
and a final line starting with `"Total number"`. -/

/-- One quoted address token `'<ip>:<port>'`. -/
def mkAddr (a : List Char × List Char) : List Char :=
  '\'' :: (a.1 ++ ':' :: a.2) ++ ['\'']

/-- The comma-separated token list `'<ip>:<port>', '<ip>:<port>', ...`. -/
def mkAddrList : List (List Char × List Char) → List Char
  | [] => []
  | [a] => mkAddr a
  | a :: rest => mkAddr a ++ ',' :: ' ' :: mkAddrList rest

/-- A service-group line `Protocol.<NAME>: ['<ip>:<port>', ...]`. -/
def mkLine (name : List Char) (addrs : List (List Char × List Char)) : List Char :=
  protocolDot ++ name ++ ':' :: ' ' :: '[' :: (mkAddrList addrs ++ [']'])

/-- Lines joined with a trailing `'\n'` after each. -/
def joinNL : List (List Char) → List Char
  | [] => []
  | l :: rest => l ++ '\n' :: joinNL rest

/-- Lines interspersed with `'\n'` (no trailing terminator). -/
def interNL : List (List Char) → List Char
  | [] => []
  | [l] => l
  | l :: rest => l ++ '\n' :: interNL rest

/-- A whole well-formed raw report: the start-marker line, the given
service-group lines, then a line starting with the end marker. -/
def mkRawReport (ls : List (List Char)) (tailStr : List Char) : List Char :=
  markerA ++ '\n' :: (joinNL ls ++ (markerT ++ tailStr))

/-- A string containing no line terminator. -/
def termFree (s : List Char) : Prop := '\n' ∉ s ∧ '\r' ∉ s

instance (s : List Char) : Decidable (termFree s) := by
  unfold termFree
  infer_instance

/-- Well-formedness of one `(ip, port)` address pair as the spec's token
grammar `'<ip>:<port>'` requires: the token contains exactly one colon
(neither part has a colon), parts do not contain the token separator or a
line terminator, and the parts do not begin/end with a character that
`strip(" '")` would remove. -/
def addrWF (a : List Char × List Char) : Prop :=
  ':' ∉ a.1 ∧ ':' ∉ a.2 ∧ ',' ∉ a.1 ∧ ',' ∉ a.2 ∧
  '\n' ∉ a.1 ∧ '\n' ∉ a.2 ∧ '\r' ∉ a.1 ∧ '\r' ∉ a.2 ∧
  a.1.head? ≠ some ' ' ∧ a.1.head? ≠ some '\'' ∧
  a.2.getLast? ≠ some ' ' ∧ a.2.getLast? ≠ some '\''

instance (a : List Char × List Char) : Decidable (addrWF a) := by
  unfold addrWF
  infer_instance

/-- One protocol group of a well-formed report: a registered protocol name,
its transport, and the advertised addresses. -/
structure Group where
  name : List Char
  transport : List Char
  addrs : List (List Char × List Char)

/-- Well-formedness of a group against a registry: the name is a registered
identifier (so colon- and terminator-free), resolving to the group's
transport, and it advertises at least one well-formed address token. -/
def groupWF (reg : Registry) (g : Group) : Prop :=
  lookupTransport reg g.name = some g.transport ∧ ':' ∉ g.name ∧
  '\n' ∉ g.name ∧ '\r' ∉ g.name ∧ g.addrs ≠ [] ∧ ∀ a ∈ g.addrs, addrWF a

instance (reg : Registry) (g : Group) : Decidable (groupWF reg g) := by
  unfold groupWF
  infer_instance

/-- The textual service-group line of a group. -/
def mkGroupLine (g : Group) : List Char := mkLine g.name g.addrs

/-- The service records the spec expects for one group. -/
def recsFor (name tr : List Char) (addrs : List (List Char × List Char)) :
    List ServiceRecord :=
  addrs.map (fun a => ⟨a.1, a.2, asciiLower name, asciiLower tr⟩)

/-- The service records the spec expects for one group. -/
def groupRecords (g : Group) : List ServiceRecord := recsFor g.name g.transport g.addrs

/-- The concatenated expected records of a group list, in report order. -/
def allRecords : List Group → List ServiceRecord
  | [] => []
  | g :: gs => groupRecords g ++ allRecords gs

/-! ## Definitions following the spec's words (for refinement comparisons) -/

/-- Modelled from the spec's words (claim C5): the slice between the two
markers excludes the marker lines themselves, and exactly the first line of
that slice (a sub-header) is discarded, the remaining lines being the
candidate service-group lines. -/
def claimCandidates (out : List Char) : List (List Char) :=
  (((((splitlines out).dropWhile (fun l => !occurs markerA l)).drop 1).takeWhile
    (fun l => !occurs markerT l)).drop 1)

/-- Modelled from the spec's words (claim C6): split the stripped token once
on `":"`; ip is the text before the first colon and port is the entire text
after the first colon. -/
def specSplitOnce (t : List Char) : List Char × List Char :=
  (t.takeWhile (· != ':'), (t.dropWhile (· != ':')).drop 1)

/-! ## Concrete inputs used by witnesses and counterexamples -/

/-- A registry fragment: the `SSDP` protocol identifier resolves to the
`UDP` transport class. -/
def regW : Registry := [(toL "SSDP", toL "UDP")]

/-- A report whose second group line lacks both `"Protocol."` and any colon,
preceded by a valid group line. -/
def reportBadLine : List Char :=
  toL "Active endpoints:\nProtocol.SSDP: ['1.2.3.4:1900']\ngarbage\nTotal number"

/-- A report whose single group line names the protocol in lower case while
the registry registers it in upper case. -/
def reportLowerName : List Char :=
  toL "Active endpoints:\nProtocol.ssdp: ['1.2.3.4:1900']\nTotal number"

/-- A report with exactly one group line between the markers. -/
def reportOneGroup : List Char :=
  toL "Active endpoints:\nProtocol.SSDP: ['1.2.3.4:1900']\nTotal number"

/-- A report whose single token carries two colons. -/
def reportTwoColons : List Char :=
  toL "Active endpoints:\nProtocol.SSDP: ['a:b:c']\nTotal number"

/-- The group list of the spec's two-address SSDP example. -/
def exampleGroups : List Group :=
  [⟨toL "SSDP", toL "UDP", [(toL "10.0.0.5", toL "1900"), (toL "10.0.0.6", toL "1900")]⟩]

/-! ## Lemmas about the string primitives -/

lemma strFind_none_forall {sub s : List Char} (h : strFind sub s = none) :
    ∀ n, ¬ sub <+: s.drop n := by
  induction s with
  | nil =>
    intro n hc
    rw [List.drop_nil] at hc
    simp only [strFind, if_pos hc] at h
    exact Option.noConfusion h
  | cons c rest ih =>
    intro n hc
    simp only [strFind] at h
    split at h
    · exact Option.noConfusion h
    · next hp =>
      rcases n with _ | m
      · exact hp (by simpa using hc)
      · exact ih (by simpa using h) m (by simpa using hc)

lemma strFind_some_of {sub s : List Char} {n : Nat}
    (h1 : ∀ m, m < n → ¬ sub <+: s.drop m) (h2 : sub <+: s.drop n) :
    strFind sub s = some n := by
  induction s generalizing n with
  | nil =>
    rw [List.drop_nil] at h2
    rcases n with _ | m
    · simp only [strFind, if_pos h2]
    · exact absurd (by simpa using h2) (by simpa using h1 0 (Nat.succ_pos m))
  | cons c rest ih =>
    rcases n with _ | m
    · simp only [List.drop_zero] at h2
      simp only [strFind, if_pos h2]
    · have hn : ¬ sub <+: c :: rest := by simpa using h1 0 (Nat.succ_pos m)
      have : strFind sub rest = some m := by
        refine ih (fun k hk => ?_) (by simpa using h2)
        simpa using h1 (k + 1) (by omega)
      simp [strFind, if_neg hn, this]

/-- A prefix of `a ++ b` no longer than `a` is a prefix of `a`. -/
lemma pfx_of_append_left {sub a b : List Char} (h : sub <+: a ++ b)
    (hl : sub.length ≤ a.length) : sub <+: a := by
  have := List.prefix_iff_eq_take.mp h
  rw [List.take_append_eq_append_take, Nat.sub_eq_zero_of_le hl,
    List.take_zero, List.append_nil] at this
  rw [this]
  exact List.take_prefix _ _

/-- A prefix of `a ++ b` at least as long as `a` splits: its tail past `a`
is a prefix of `b`. -/
lemma pfx_of_append_drop {sub a b : List Char} (h : sub <+: a ++ b)
    (hl : a.length ≤ sub.length) : sub.drop a.length <+: b := by
  have := List.prefix_iff_eq_take.mp h
  rw [List.take_append_eq_append_take, List.take_of_length_le hl] at this
  rw [this, List.drop_left]
  exact List.take_prefix _ _

/-- Position of a marker: in `x ++ sub ++ y`, if `sub` does not occur in `x`
and `sub` has no proper border (no nonempty proper suffix-start of `sub` is a
prefix of `sub`), then the first occurrence of `sub` is exactly at `x.length`. -/
lemma strFind_marker {sub x y : List Char}
    (hocc : strFind sub x = none)
    (hb : ∀ k, 0 < k → k < sub.length → ¬ sub.drop k <+: sub) :
    strFind sub (x ++ (sub ++ y)) = some x.length := by
  refine strFind_some_of (fun m hm hc => ?_) ?_
  · rw [List.drop_append_of_le_length (Nat.le_of_lt hm)] at hc
    have hk : 0 < (x.drop m).length := by
      rw [List.length_drop]; omega
    by_cases hcase : sub.length ≤ (x.drop m).length
    · exact strFind_none_forall hocc m (pfx_of_append_left hc hcase)
    · push_neg at hcase
      have h2 : sub.drop (x.drop m).length <+: sub ++ y :=
        pfx_of_append_drop hc (Nat.le_of_lt hcase)
      have h3 : sub.drop (x.drop m).length <+: sub := by
        refine pfx_of_append_left h2 ?_
        rw [List.length_drop]; omega
      exact hb (x.drop m).length hk hcase h3
  · rw [List.drop_left]
    exact List.prefix_append sub y

/-- Find of a single character `c` after a `c`-free block. -/
lemma strFind_singleChar {c : Char} {x y : List Char} (h : c ∉ x) :
    strFind [c] (x ++ c :: y) = some x.length := by
  refine strFind_some_of (fun m hm hc => ?_) ?_
  · rw [List.drop_append_of_le_length (Nat.le_of_lt hm),
      List.drop_eq_getElem_cons (by omega : m < x.length)] at hc
    rcases hc with ⟨t, ht⟩
    simp only [List.cons_append, List.cons.injEq] at ht
    exact h (ht.1 ▸ List.getElem_mem (by omega : m < x.length))
  · rw [List.drop_left]
    exact ⟨y, rfl⟩

lemma strFind_zero_of_pfx {sub s : List Char} (h : sub <+: s) :
    strFind sub s = some 0 :=
  strFind_some_of (fun m hm => absurd hm (by omega)) (by simpa using h)

/-- `pyFind` with start `0` in terms of `strFind`. -/
lemma pyFind_zero (s sub : List Char) :
    pyFind s sub 0 = (match strFind sub s with
      | some i => (i : Int)
      | none => -1) := by
  simp [pyFind]

/-- `pyFind` at a nonnegative start `i ≤ s.length` in terms of `strFind`. -/
lemma pyFind_natCast (s sub : List Char) (i : Nat) (hi : i ≤ s.length) :
    pyFind s sub (i : Int) = (match strFind sub (s.drop i) with
      | some j => (i + j : Int)
      | none => -1) := by
  have h1 : ¬ ((i : Int) < 0) := by omega
  simp only [pyFind, if_neg h1, Int.toNat_natCast]
  rw [if_neg (by omega)]

/-- A Python slice with in-range natural bounds is `take`-then-`drop`. -/
lemma pySlice_of_le {s : List Char} {a b : Nat} (ha : a ≤ s.length)
    (hb : b ≤ s.length) :
    pySlice s (a : Int) (b : Int) = (s.take b).drop a := by
  simp only [pySlice, pyIdx]
  rw [if_neg (by omega), if_neg (by omega), Int.toNat_natCast, Int.toNat_natCast,
    Nat.min_eq_left ha, Nat.min_eq_left hb]

/-! ## Lemmas about `splitlines`, `pySplit` and `pyStrip` -/

lemma termFree_cons {c : Char} {a : List Char} (h : termFree (c :: a)) :
    c ≠ '\n' ∧ c ≠ '\r' ∧ termFree a := by
  obtain ⟨h1, h2⟩ := h
  simp only [List.mem_cons, not_or] at h1 h2
  exact ⟨fun hc => h1.1 hc.symm, fun hc => h2.1 hc.symm, h1.2, h2.2⟩

lemma normNL_eq_self {s : List Char} (h : '\r' ∉ s) : normNL s = s := by
  induction s with
  | nil => rfl
  | cons c rest ih =>
    have hc : c ≠ '\r' := fun hc => h (hc ▸ List.mem_cons_self _ _)
    have hr : '\r' ∉ rest := fun hm => h (List.mem_cons_of_mem _ hm)
    rw [normNL.eq_def]
    split
    · next heq => exact absurd heq (by simp)
    · next heq => exact absurd (List.cons.inj heq).1 hc
    · next c' rest' _ heq =>
      obtain ⟨h1, h2⟩ := List.cons.inj heq
      rw [← h1, ← h2, ih hr]

lemma splitlinesAux_mid {a : List Char} (ha : termFree a) :
    ∀ (acc rest : List Char),
      splitlinesAux acc (a ++ '\n' :: rest) =
        (acc.reverse ++ a) :: splitlinesAux [] rest := by
  induction a with
  | nil =>
    intro acc rest
    simp only [List.nil_append, splitlinesAux, if_pos (Or.inl rfl)]
    simp
  | cons c a' ih =>
    intro acc rest
    obtain ⟨hc1, hc2, ha'⟩ := termFree_cons ha
    rw [List.cons_append]
    simp only [splitlinesAux, if_neg (not_or.mpr ⟨hc1, hc2⟩)]
    rw [ih ha' (c :: acc) rest]
    simp

lemma splitlinesAux_last {a : List Char} (ha : termFree a) :
    ∀ acc : List Char, acc.reverse ++ a ≠ [] →
      splitlinesAux acc a = [acc.reverse ++ a] := by
  induction a with
  | nil =>
    intro acc hne
    have hacc : ¬ acc.isEmpty := by
      cases acc <;> simp_all
    simp only [splitlinesAux, if_neg hacc]
    simp
  | cons c a' ih =>
    intro acc _
    obtain ⟨hc1, hc2, ha'⟩ := termFree_cons ha
    simp only [splitlinesAux, if_neg (not_or.mpr ⟨hc1, hc2⟩)]
    rw [ih ha' (c :: acc) (by simp)]
    simp

lemma splitlinesAux_interNL :
    ∀ ls : List (List Char), (∀ l ∈ ls, termFree l ∧ l ≠ []) →
      splitlinesAux [] (interNL ls) = ls := by
  intro ls
  induction ls with
  | nil => intro _; rfl
  | cons l rest ih =>
    intro h
    cases rest with
    | nil =>
      have := h l (List.mem_cons_self _ _)
      simpa [interNL] using splitlinesAux_last this.1 [] (by simpa using this.2)
    | cons l' ls' =>
      have hl := h l (List.mem_cons_self _ _)
      rw [show interNL (l :: l' :: ls') = l ++ '\n' :: interNL (l' :: ls') from rfl,
        splitlinesAux_mid hl.1 [] _]
      rw [ih (fun x hx => h x (List.mem_cons_of_mem _ hx))]
      simp

lemma splitlines_clean {s : List Char} (h : '\r' ∉ s) :
    splitlines s = splitlinesAux [] s := by
  rw [splitlines, normNL_eq_self h]

lemma joinNL_eq_interNL :
    ∀ ls : List (List Char), ls ≠ [] → joinNL ls = interNL ls ++ ['\n'] := by
  intro ls
  induction ls with
  | nil => intro h; exact absurd rfl h
  | cons l rest ih =>
    intro _
    cases rest with
    | nil => simp [joinNL, interNL]
    | cons l' ls' =>
      rw [show joinNL (l :: l' :: ls') = l ++ '\n' :: joinNL (l' :: ls') from rfl,
        ih (by simp),
        show interNL (l :: l' :: ls') = l ++ '\n' :: interNL (l' :: ls') from rfl]
      simp

lemma pySplitAux_mid {sep : Char} {a : List Char} (h : sep ∉ a) :
    ∀ (acc rest : List Char),
      pySplitAux sep acc (a ++ sep :: rest) =
        (acc.reverse ++ a) :: pySplitAux sep [] rest := by
  induction a with
  | nil =>
    intro acc rest
    simp [pySplitAux]
  | cons c a' ih =>
    intro acc rest
    have hc : ¬ c = sep := fun hc => h (hc ▸ List.mem_cons_self _ _)
    have ha' : sep ∉ a' := fun hm => h (List.mem_cons_of_mem _ hm)
    rw [List.cons_append]
    simp only [pySplitAux, if_neg hc]
    rw [ih ha' (c :: acc) rest]
    simp

lemma pySplitAux_last {sep : Char} {a : List Char} (h : sep ∉ a) :
    ∀ acc : List Char, pySplitAux sep acc a = [acc.reverse ++ a] := by
  induction a with
  | nil => intro acc; simp [pySplitAux]
  | cons c a' ih =>
    intro acc
    have hc : ¬ c = sep := fun hc => h (hc ▸ List.mem_cons_self _ _)
    have ha' : sep ∉ a' := fun hm => h (List.mem_cons_of_mem _ hm)
    simp only [pySplitAux, if_neg hc]
    rw [ih ha' (c :: acc)]
    simp

lemma pySplit_mid {sep : Char} {a : List Char} (h : sep ∉ a) (rest : List Char) :
    pySplit sep (a ++ sep :: rest) = a :: pySplitAux sep [] rest := by
  simpa using pySplitAux_mid h [] rest

lemma pySplit_all {sep : Char} {a : List Char} (h : sep ∉ a) :
    pySplit sep a = [a] := by
  simpa using pySplitAux_last h []

lemma dropWhile_append_all {p : Char → Bool} {x : List Char}
    (h : ∀ c ∈ x, p c = true) (s : List Char) :
    (x ++ s).dropWhile p = s.dropWhile p := by
  induction x with
  | nil => simp
  | cons c x' ih =>
    rw [List.cons_append, List.dropWhile_cons_of_pos (h c (List.mem_cons_self _ _))]
    exact ih (fun d hd => h d (List.mem_cons_of_mem _ hd))

lemma dropWhile_eq_self_of_head {p : Char → Bool} {s : List Char}
    (h : ∀ c, s.head? = some c → p c = false) : s.dropWhile p = s := by
  cases s with
  | nil => simp
  | cons c rest => exact List.dropWhile_cons_of_neg (by simp [h c rfl])

/-! ## Lemmas about token stripping and splitting -/

lemma stripChars_contains_false {c : Char} (h1 : c ≠ ' ') (h2 : c ≠ '\'') :
    stripChars.contains c = false := by
  simp [stripChars, h1, h2]

/-- Stripping `" '"` from an optionally space-prefixed quoted token yields
the bare `<ip>:<port>` text. -/
lemma pyStrip_token {a : List Char × List Char} (ha : addrWF a)
    {pre : List Char} (hpre : ∀ c ∈ pre, stripChars.contains c = true) :
    pyStrip stripChars (pre ++ mkAddr a) = a.1 ++ ':' :: a.2 := by
  obtain ⟨ip, port⟩ := a
  obtain ⟨h1, h2, h3, h4, h5, h6, h7, h8, h9, h10, h11, h12⟩ := ha
  simp only at h9 h10 h11 h12
  have hshape : pre ++ mkAddr (ip, port) =
      (pre ++ ['\'']) ++ ((ip ++ ':' :: port) ++ ['\'']) := by
    simp [mkAddr]
  have hall : ∀ c ∈ pre ++ ['\''], stripChars.contains c = true := by
    intro c hc
    rcases List.mem_append.mp hc with h | h
    · exact hpre c h
    · simp only [List.mem_singleton] at h
      subst h; decide
  have hstop1 : List.dropWhile (stripChars.contains ·)
      ((ip ++ ':' :: port) ++ ['\'']) = (ip ++ ':' :: port) ++ ['\''] := by
    apply dropWhile_eq_self_of_head
    intro c hc
    cases ip with
    | nil =>
      simp only [List.nil_append, List.cons_append, List.head?_cons,
        Option.some.injEq] at hc
      subst hc; decide
    | cons d t =>
      simp only [List.cons_append, List.head?_cons, Option.some.injEq] at hc
      subst hc
      exact stripChars_contains_false
        (fun hd => h9 (by rw [hd]; rfl))
        (fun hd => h10 (by rw [hd]; rfl))
  have hstop2 : List.dropWhile (stripChars.contains ·)
      ((ip ++ ':' :: port).reverse) = (ip ++ ':' :: port).reverse := by
    apply dropWhile_eq_self_of_head
    intro c hc
    rw [List.head?_reverse, List.getLast?_append] at hc
    cases port with
    | nil =>
      simp only [List.getLast?_singleton, Option.or_some, Option.some.injEq] at hc
      subst hc; decide
    | cons p ps =>
      rw [List.getLast?_cons_cons] at hc
      have hsome : (p :: ps).getLast? = some c := by
        rcases h : (p :: ps).getLast? with _ | d
        · exact absurd h (by simp)
        · rw [h] at hc
          simpa using hc
      exact stripChars_contains_false
        (fun hd => h11 (by rw [← hd]; exact hsome))
        (fun hd => h12 (by rw [← hd]; exact hsome))
  rw [pyStrip, hshape, dropWhile_append_all hall, hstop1, List.reverse_append,
    show (['\''] : List Char).reverse = ['\''] from rfl, List.singleton_append,
    List.dropWhile_cons_of_pos (by decide), hstop2, List.reverse_reverse]

/-- Splitting the bare `<ip>:<port>` text on colons. -/
lemma pySplit_colon_token {ip port : List Char} (h1 : ':' ∉ ip) (h2 : ':' ∉ port) :
    pySplit ':' (ip ++ ':' :: port) = [ip, port] := by
  rw [pySplit_mid h1, pySplitAux_last h2]
  simp

lemma comma_not_mem_mkAddr {a : List Char × List Char} (ha : addrWF a) :
    ',' ∉ mkAddr a := by
  obtain ⟨ip, port⟩ := a
  obtain ⟨_, _, h3, h4, _⟩ := ha
  intro hm
  simp only [mkAddr, List.cons_append, List.mem_cons, List.mem_append,
    List.mem_singleton] at hm
  rcases hm with h | h
  · exact absurd h (by decide)
  · rcases h with h | h
    · rcases h with h | h
      · exact h3 h
      · rcases h with h | h
        · exact absurd h (by decide)
        · exact h4 h
    · exact absurd h (by decide)

lemma pySplitAux_mkAddrList :
    ∀ (rest : List (List Char × List Char)) (b : List Char × List Char)
      (acc : List Char), addrWF b → (∀ a ∈ rest, addrWF a) →
      pySplitAux ',' acc (mkAddrList (b :: rest)) =
        (acc.reverse ++ mkAddr b) :: rest.map (fun a => ' ' :: mkAddr a) := by
  intro rest
  induction rest with
  | nil =>
    intro b acc hb _
    rw [show mkAddrList [b] = mkAddr b from rfl,
      pySplitAux_last (comma_not_mem_mkAddr hb)]
    simp
  | cons b' rest' ih =>
    intro b acc hb hrest
    rw [show mkAddrList (b :: b' :: rest') =
        mkAddr b ++ ',' :: ' ' :: mkAddrList (b' :: rest') from rfl,
      pySplitAux_mid (comma_not_mem_mkAddr hb) acc _,
      show pySplitAux ',' [] (' ' :: mkAddrList (b' :: rest')) =
        pySplitAux ',' [' '] (mkAddrList (b' :: rest')) from by
          simp [pySplitAux],
      ih b' [' '] (hrest b' (List.mem_cons_self _ _))
        (fun a hx => hrest a (List.mem_cons_of_mem _ hx))]
    simp

/-! ## Lemmas about the parsing loops on well-formed input -/

lemma processTokens_step {reg : Registry} {name tr : List Char}
    (hlt : lookupTransport reg name = some tr)
    {b : List Char × List Char} (hb : addrWF b) {pre : List Char}
    (hpre : ∀ c ∈ pre, stripChars.contains c = true)
    {toks : List (List Char)} {rs : List ServiceRecord} {e : Option RunErr}
    (hrec : processTokens reg name toks = (rs, e)) :
    processTokens reg name ((pre ++ mkAddr b) :: toks) =
      ((⟨b.1, b.2, asciiLower name, asciiLower tr⟩ : ServiceRecord) :: rs, e) := by
  have hb1 : ':' ∉ b.1 := hb.1
  have hb2 : ':' ∉ b.2 := hb.2.1
  simp only [processTokens]
  rw [pyStrip_token hb hpre, pySplit_colon_token hb1 hb2]
  simp only [hlt, hrec]

lemma processTokens_map {reg : Registry} {name tr : List Char}
    (hlt : lookupTransport reg name = some tr) :
    ∀ addrs : List (List Char × List Char), (∀ a ∈ addrs, addrWF a) →
      processTokens reg name (addrs.map (fun a => ' ' :: mkAddr a)) =
        (recsFor name tr addrs, none) := by
  intro addrs
  induction addrs with
  | nil => intro _; rfl
  | cons b rest ih =>
    intro h
    have hb := h b (List.mem_cons_self _ _)
    have hrest := ih (fun a hx => h a (List.mem_cons_of_mem _ hx))
    rw [List.map_cons,
      show (' ' :: mkAddr b) = [' '] ++ mkAddr b from rfl,
      processTokens_step hlt hb (by intro c hc; simp at hc; subst hc; decide) hrest]
    rfl

lemma processTokens_mkToks {reg : Registry} {name tr : List Char}
    (hlt : lookupTransport reg name = some tr)
    {b : List Char × List Char} (hb : addrWF b)
    {rest : List (List Char × List Char)} (hrest : ∀ a ∈ rest, addrWF a) :
    processTokens reg name (mkAddr b :: rest.map (fun a => ' ' :: mkAddr a)) =
      (recsFor name tr (b :: rest), none) := by
  rw [show mkAddr b = [] ++ mkAddr b from rfl,
    processTokens_step hlt hb (by intro c hc; simp at hc) (processTokens_map hlt rest hrest)]
  rfl


lemma protocolDot_length : protocolDot.length = 9 := by decide

lemma colon_not_mem_protocolDot : ':' ∉ protocolDot := by decide

lemma mkLine_length {name : List Char} {addrs : List (List Char × List Char)} :
    (mkLine name addrs).length = 13 + name.length + (mkAddrList addrs).length := by
  simp [mkLine, protocolDot, toL]
  omega

lemma pySlice_neg_one {s : List Char} {a : Nat} (ha : a ≤ s.length) :
    pySlice s (a : Int) (-1) = s.dropLast.drop a := by
  simp only [pySlice, pyIdx]
  rw [if_neg (by omega), if_pos (by omega), Int.toNat_natCast, Nat.min_eq_left ha]
  have h1 : ((s.length : Int) + (-1)).toNat = s.length - 1 := by omega
  rw [h1, ← List.dropLast_eq_take]

/-- The wrapper's per-line processing of a well-formed service-group line
reduces to the token loop over its address tokens (the first bare, the rest
space-prefixed by the `", "` separator). -/
lemma processLine_mk_general {reg : Registry} {name : List Char}
    {addrs : List (List Char × List Char)}
    (hname : ':' ∉ name) (haddrs : ∀ a ∈ addrs, addrWF a) (hne : addrs ≠ []) :
    ∃ b rest, addrs = b :: rest ∧
      processLine reg (mkLine name addrs) =
        processTokens reg name (mkAddr b :: rest.map (fun a => ' ' :: mkAddr a)) := by
  have hshape : mkLine name addrs =
      (protocolDot ++ name) ++ ':' :: (' ' :: '[' :: (mkAddrList addrs ++ [']'])) := by
    simp [mkLine]
  have hcolon : ':' ∉ protocolDot ++ name := by
    intro hm
    rcases List.mem_append.mp hm with h | h
    · exact colon_not_mem_protocolDot h
    · exact hname h
  have hlen : (protocolDot ++ name).length = 9 + name.length := by
    rw [List.length_append, protocolDot_length]
  have hlinelen : (mkLine name addrs).length =
      13 + name.length + (mkAddrList addrs).length := mkLine_length
  have hfind1 : pyFind (mkLine name addrs) protocolDot 0 = 0 := by
    rw [pyFind_zero, strFind_zero_of_pfx (by
      rw [mkLine]
      exact ⟨name ++ ':' :: ' ' :: '[' :: (mkAddrList addrs ++ [']']), by simp⟩)]
    rfl
  have hfind2 : pyFind (mkLine name addrs) [':'] 0 = ((9 + name.length : Nat) : Int) := by
    rw [pyFind_zero]
    rw [show strFind [':'] (mkLine name addrs) = some (9 + name.length) from by
      rw [hshape, strFind_singleChar hcolon, hlen]]
  have hslice1 : pySlice (mkLine name addrs) (9 : Int)
      ((9 + name.length : Nat) : Int) = name := by
    rw [show (9 : Int) = ((9 : Nat) : Int) from by norm_num]
    rw [pySlice_of_le (by omega) (by omega), hshape]
    rw [show (9 + name.length) = (protocolDot ++ name).length from hlen.symm,
      List.take_left]
    rw [show (9 : Nat) = protocolDot.length from protocolDot_length.symm,
      List.drop_left]
  have hshape2 : mkLine name addrs =
      ((protocolDot ++ name ++ [':', ' ', '[']) ++ mkAddrList addrs) ++ [']'] := by
    simp [mkLine]
  have hXlen : (protocolDot ++ name ++ [':', ' ', '[']).length = 12 + name.length := by
    simp [protocolDot, toL]
    omega
  have hslice2 : pySlice (mkLine name addrs) ((12 + name.length : Nat) : Int) (-1) =
      mkAddrList addrs := by
    rw [pySlice_neg_one (by omega), hshape2, List.dropLast_concat]
    rw [show (12 + name.length) = (protocolDot ++ name ++ [':', ' ', '[']).length from
      hXlen.symm, List.drop_left]
  obtain ⟨b, rest, rfl⟩ : ∃ b rest, addrs = b :: rest := by
    cases addrs with
    | nil => exact absurd rfl hne
    | cons b rest => exact ⟨b, rest, rfl⟩
  have hsplit : pySplit ',' (mkAddrList (b :: rest)) =
      mkAddr b :: rest.map (fun a => ' ' :: mkAddr a) := by
    rw [pySplit, pySplitAux_mkAddrList rest b [] (haddrs b (List.mem_cons_self _ _))
      (fun a hx => haddrs a (List.mem_cons_of_mem _ hx))]
    simp
  have hcast : ((9 + name.length : Nat) : Int) + 3 = ((12 + name.length : Nat) : Int) := by
    push_cast
    ring
  refine ⟨b, rest, rfl, ?_⟩
  simp only [processLine]
  rw [hfind1, hfind2, zero_add, hslice1, hcast, hslice2, hsplit]

/-- Full evaluation of the wrapper's per-line processing on a well-formed
service-group line of a registered protocol. -/
lemma processLine_mk {reg : Registry} {name tr : List Char}
    {addrs : List (List Char × List Char)}
    (hname : ':' ∉ name) (hlt : lookupTransport reg name = some tr)
    (haddrs : ∀ a ∈ addrs, addrWF a) (hne : addrs ≠ []) :
    processLine reg (mkLine name addrs) = (recsFor name tr addrs, none) := by
  obtain ⟨b, rest, rfl, heval⟩ := processLine_mk_general hname haddrs hne
  rw [heval]
  exact processTokens_mkToks hlt (haddrs b (List.mem_cons_self _ _))
    (fun a hx => haddrs a (List.mem_cons_of_mem _ hx))

/-- On the same well-formed line, a registry miss for the protocol name
aborts at the first token with the lookup error and no records. -/
lemma processLine_mk_noLookup {reg : Registry} {name : List Char}
    {addrs : List (List Char × List Char)}
    (hname : ':' ∉ name) (hlt : lookupTransport reg name = none)
    (haddrs : ∀ a ∈ addrs, addrWF a) (hne : addrs ≠ []) :
    processLine reg (mkLine name addrs) = ([], some RunErr.lookupErr) := by
  obtain ⟨b, rest, rfl, heval⟩ := processLine_mk_general hname haddrs hne
  rw [heval]
  have hb := haddrs b (List.mem_cons_self _ _)
  simp only [processTokens]
  rw [show mkAddr b = [] ++ mkAddr b from rfl, pyStrip_token hb (by intro c hc; simp at hc),
    pySplit_colon_token hb.1 hb.2.1]
  simp only [hlt]

/-! ## Character membership and line shape lemmas -/

lemma mem_mkAddr {c : Char} {a : List Char × List Char} (h : c ∈ mkAddr a) :
    c = '\'' ∨ c = ':' ∨ c ∈ a.1 ∨ c ∈ a.2 := by
  simp only [mkAddr, List.cons_append, List.mem_cons, List.mem_append,
    List.mem_singleton] at h
  tauto

lemma mem_mkAddrList {c : Char} :
    ∀ addrs : List (List Char × List Char), c ∈ mkAddrList addrs →
      c = ',' ∨ c = ' ' ∨ ∃ a ∈ addrs, c ∈ mkAddr a := by
  intro addrs
  induction addrs with
  | nil => intro h; exact absurd h (List.not_mem_nil c)
  | cons a rest ih =>
    intro h
    cases rest with
    | nil =>
      right; right
      exact ⟨a, List.mem_cons_self _ _, h⟩
    | cons b rest' =>
      rw [show mkAddrList (a :: b :: rest') =
        mkAddr a ++ ',' :: ' ' :: mkAddrList (b :: rest') from rfl] at h
      simp only [List.mem_append, List.mem_cons] at h
      rcases h with h | h | h | h
      · exact Or.inr (Or.inr ⟨a, List.mem_cons_self _ _, h⟩)
      · exact Or.inl h
      · exact Or.inr (Or.inl h)
      · rcases ih h with h | h | ⟨x, hx, hcx⟩
        · exact Or.inl h
        · exact Or.inr (Or.inl h)
        · exact Or.inr (Or.inr ⟨x, List.mem_cons_of_mem _ hx, hcx⟩)

lemma mem_interNL {c : Char} :
    ∀ ls : List (List Char), c ∈ interNL ls → c = '\n' ∨ ∃ l ∈ ls, c ∈ l := by
  intro ls
  induction ls with
  | nil => intro h; exact absurd h (List.not_mem_nil c)
  | cons l rest ih =>
    intro h
    cases rest with
    | nil => exact Or.inr ⟨l, List.mem_cons_self _ _, h⟩
    | cons l' ls' =>
      rw [show interNL (l :: l' :: ls') = l ++ '\n' :: interNL (l' :: ls') from rfl] at h
      simp only [List.mem_append, List.mem_cons] at h
      rcases h with h | h | h
      · exact Or.inr ⟨l, List.mem_cons_self _ _, h⟩
      · exact Or.inl h
      · rcases ih h with h | ⟨x, hx, hcx⟩
        · exact Or.inl h
        · exact Or.inr ⟨x, List.mem_cons_of_mem _ hx, hcx⟩

lemma termFree_mkGroupLine {reg : Registry} {g : Group} (hg : groupWF reg g) :
    termFree (mkGroupLine g) ∧ mkGroupLine g ≠ [] := by
  obtain ⟨_, _, hn1, hr1, _, haddrs⟩ := hg
  refine ⟨⟨?_, ?_⟩, ?_⟩
  · intro hm
    simp only [mkGroupLine, mkLine, List.mem_append, List.mem_cons,
      List.mem_singleton] at hm
    rcases hm with (h | h) | h | h | h | h | h | h
    · exact absurd h (by decide)
    · exact hn1 h
    · exact absurd h (by decide)
    · exact absurd h (by decide)
    · exact absurd h (by decide)
    · rcases mem_mkAddrList _ h with h | h | ⟨a, ha, hca⟩
      · exact absurd h (by decide)
      · exact absurd h (by decide)
      · rcases mem_mkAddr hca with h | h | h | h
        · exact absurd h (by decide)
        · exact absurd h (by decide)
        · exact (haddrs a ha).2.2.2.2.1 h
        · exact (haddrs a ha).2.2.2.2.2.1 h
    · exact absurd h (by decide)
    · exact absurd h (List.not_mem_nil _)
  · intro hm
    simp only [mkGroupLine, mkLine, List.mem_append, List.mem_cons,
      List.mem_singleton] at hm
    rcases hm with (h | h) | h | h | h | h | h | h
    · exact absurd h (by decide)
    · exact hr1 h
    · exact absurd h (by decide)
    · exact absurd h (by decide)
    · exact absurd h (by decide)
    · rcases mem_mkAddrList _ h with h | h | ⟨a, ha, hca⟩
      · exact absurd h (by decide)
      · exact absurd h (by decide)
      · rcases mem_mkAddr hca with h | h | h | h
        · exact absurd h (by decide)
        · exact absurd h (by decide)
        · exact (haddrs a ha).2.2.2.2.2.2.1 h
        · exact (haddrs a ha).2.2.2.2.2.2.2.1 h
    · exact absurd h (by decide)
    · exact absurd h (List.not_mem_nil _)
  · intro hm
    simp only [mkGroupLine, mkLine] at hm
    have hpd : protocolDot ≠ [] := by decide
    rw [List.append_eq_nil, List.append_eq_nil] at hm
    exact hpd hm.1.1

/-! ## Evaluation of the marker search and slicing on well-formed reports -/

lemma markerT_no_border :
    ∀ k, k < markerT.length → 0 < k → ¬ markerT.drop k <+: markerT := by
  decide

lemma mkRawReport_shape (ls : List (List Char)) (tailStr : List Char) :
    mkRawReport ls tailStr = (markerA ++ '\n' :: joinNL ls) ++ (markerT ++ tailStr) := by
  simp [mkRawReport]

lemma header_length (ls : List (List Char)) :
    (markerA ++ '\n' :: joinNL ls).length = 18 + (joinNL ls).length := by
  rw [List.length_append, List.length_cons, show markerA.length = 17 from by decide]
  omega

lemma mkRawReport_length (ls : List (List Char)) (tailStr : List Char) :
    (mkRawReport ls tailStr).length =
      18 + (joinNL ls).length + (12 + tailStr.length) := by
  rw [mkRawReport_shape, List.length_append, header_length, List.length_append,
    show markerT.length = 12 from by decide]

lemma pyFindA_mk (ls : List (List Char)) (tailStr : List Char) :
    pyFind (mkRawReport ls tailStr) markerA 0 = 0 := by
  have hpfx : markerA <+: mkRawReport ls tailStr :=
    ⟨'\n' :: (joinNL ls ++ (markerT ++ tailStr)), rfl⟩
  rw [pyFind_zero, strFind_zero_of_pfx hpfx]
  rfl

lemma pyFindT_mk (ls : List (List Char)) (tailStr : List Char)
    (hocc : strFind markerT (markerA ++ '\n' :: joinNL ls) = none) :
    pyFind (mkRawReport ls tailStr) markerT 0 =
      ((18 + (joinNL ls).length : Nat) : Int) := by
  rw [pyFind_zero]
  rw [show strFind markerT (mkRawReport ls tailStr) =
      some (18 + (joinNL ls).length) from by
    rw [mkRawReport_shape,
      strFind_marker hocc (fun k hk1 hk2 => markerT_no_border k hk2 hk1),
      header_length]]

/-- The candidate service-group lines computed by the wrapper on a
well-formed report are exactly the report's group lines: the slice starts
inside the start-marker line and the `[1:]` discards that line's remainder,
so every line strictly between the marker line and the end marker — also a
sub-header, when present — is a candidate. -/
lemma candidates_mk {ls : List (List Char)} {tailStr : List Char}
    (hls : ∀ l ∈ ls, termFree l ∧ l ≠ [])
    (hocc : strFind markerT (markerA ++ '\n' :: joinNL ls) = none) :
    protocolServices (mkRawReport ls tailStr) = ls := by
  have houtlen := mkRawReport_length ls tailStr
  have hxlen := header_length ls
  simp only [protocolServices]
  rw [pyFindA_mk, pyFindT_mk ls tailStr hocc, zero_add]
  rw [show ((18 + (joinNL ls).length : Nat) : Int) - 1 =
      ((17 + (joinNL ls).length : Nat) : Int) from by push_cast; ring]
  rw [show (2 : Int) = ((2 : Nat) : Int) from by norm_num]
  rw [pySlice_of_le (by omega) (by omega)]
  have htake : (mkRawReport ls tailStr).take (17 + (joinNL ls).length) =
      (markerA ++ '\n' :: joinNL ls).dropLast := by
    rw [mkRawReport_shape, List.take_append_eq_append_take,
      show 17 + (joinNL ls).length - (markerA ++ '\n' :: joinNL ls).length = 0 from by
        omega,
      List.take_zero, List.append_nil, List.dropLast_eq_take, hxlen]
    congr 1
    omega
  rw [htake]
  cases ls with
  | nil => decide
  | cons l ls' =>
    have hx2 : markerA ++ '\n' :: joinNL (l :: ls') =
        (markerA ++ '\n' :: interNL (l :: ls')) ++ ['\n'] := by
      rw [joinNL_eq_interNL _ (by simp)]
      simp
    rw [hx2, List.dropLast_concat,
      List.drop_append_of_le_length (by decide : (2:Nat) ≤ markerA.length)]
    have hr : '\r' ∉ markerA.drop 2 ++ '\n' :: interNL (l :: ls') := by
      intro hm
      simp only [List.mem_append, List.mem_cons] at hm
      rcases hm with h | h | h
      · exact absurd h (by decide)
      · exact absurd h (by decide)
      · rcases mem_interNL _ h with h | ⟨x, hx, hcx⟩
        · exact absurd h (by decide)
        · exact (hls x hx).1.2 hcx
    rw [splitlines_clean hr, splitlinesAux_mid (by decide) [] _,
      splitlinesAux_interNL _ hls]
    simp

/-- On a well-formed report the whole parse phase reduces to the line loop
over the group lines. -/
lemma parse_mk {reg : Registry} {ls : List (List Char)} {tailStr : List Char}
    (hls : ∀ l ∈ ls, termFree l ∧ l ≠ [])
    (hocc : strFind markerT (markerA ++ '\n' :: joinNL ls) = none) :
    parseAndReport reg (mkRawReport ls tailStr) = processLines reg ls := by
  simp only [parseAndReport]
  rw [pyFindA_mk, pyFindT_mk ls tailStr hocc, if_neg (by omega)]
  rw [candidates_mk hls hocc]

/-! ## The line loop on well-formed candidate lists -/

lemma occurs_false_iff {sub s : List Char} :
    occurs sub s = false ↔ strFind sub s = none := by
  unfold occurs
  cases strFind sub s <;> simp

lemma strFind_le_length {sub s : List Char} :
    ∀ {n : Nat}, strFind sub s = some n → n ≤ s.length := by
  induction s with
  | nil =>
    intro n h
    simp only [strFind] at h
    split at h
    · cases h; omega
    · exact Option.noConfusion h
  | cons c rest ih =>
    intro n h
    simp only [strFind] at h
    split at h
    · cases h; omega
    · rcases h' : strFind sub rest with _ | m
      · rw [h'] at h; exact Option.noConfusion h
      · rw [h'] at h
        simp only [Option.map_some', Option.some.injEq] at h
        have := ih h'
        rw [List.length_cons]
        omega

set_option maxHeartbeats 1000000 in
lemma processLines_cons_ok {reg : Registry} {l : List Char}
    {rest : List (List Char)} {rs rs' : List ServiceRecord} {e' : Option RunErr}
    (h : processLine reg l = (rs, none)) (h2 : processLines reg rest = (rs', e')) :
    processLines reg (l :: rest) = (rs ++ rs', e') := by
  unfold processLines
  rw [h, h2]

lemma processLines_cons_err {reg : Registry} {l : List Char}
    {rest : List (List Char)} {rs : List ServiceRecord} {e : RunErr}
    (h : processLine reg l = (rs, some e)) :
    processLines reg (l :: rest) = (rs, some e) := by
  unfold processLines
  rw [h]

lemma processLine_group {reg : Registry} {g : Group} (hg : groupWF reg g) :
    processLine reg (mkGroupLine g) = (groupRecords g, none) := by
  obtain ⟨hlt, hname, _, _, hne, haddrs⟩ := hg
  exact processLine_mk hname hlt haddrs hne

lemma processLines_groups {reg : Registry} :
    ∀ groups : List Group, (∀ g ∈ groups, groupWF reg g) →
      processLines reg (groups.map mkGroupLine) = (allRecords groups, none) := by
  intro groups
  induction groups with
  | nil => intro _; rfl
  | cons g gs ih =>
    intro h
    rw [List.map_cons,
      processLines_cons_ok (processLine_group (h g (List.mem_cons_self _ _)))
        (ih (fun x hx => h x (List.mem_cons_of_mem _ hx)))]
    rfl

lemma processLines_until_err {reg : Registry} {bad : List Char}
    {rest : List (List Char)} {bs : List ServiceRecord} {e : RunErr}
    (hbad : processLine reg bad = (bs, some e)) :
    ∀ groups : List Group, (∀ g ∈ groups, groupWF reg g) →
      processLines reg (groups.map mkGroupLine ++ bad :: rest) =
        (allRecords groups ++ bs, some e) := by
  intro groups
  induction groups with
  | nil =>
    intro _
    rw [List.map_nil, List.nil_append, processLines_cons_err hbad]
    simp [allRecords]
  | cons g gs ih =>
    intro h
    rw [List.map_cons, List.cons_append,
      processLines_cons_ok (processLine_group (h g (List.mem_cons_self _ _)))
        (ih (fun x hx => h x (List.mem_cons_of_mem _ hx)))]
    simp [allRecords, groupRecords]

/-! ## Claim theorems -/

/-- Claim C1: for every well-formed RawReport consisting of the
`Active endpoints:` marker line, then service-group lines
`Protocol.<NAME>: ['<ip>:<port>', ...]` (each `<NAME>` a registered protocol
identifier, each token containing exactly one colon, at least one token per
group as the form displays), then a line starting with `Total number`, the
parse-and-report phase of `run` emits exactly the concatenated records of all
groups — `ΣMi` of them — each record's ip and port exactly matching the
corresponding input token and its protocol name lowercased, with no
exception raised. -/
theorem amplifier_C1_roundtrip (reg : Registry) (groups : List Group)
    (tailStr : List Char) (hwf : ∀ g ∈ groups, groupWF reg g)
    (hocc : occurs markerT
      (markerA ++ '\n' :: joinNL (groups.map mkGroupLine)) = false) :
    parseAndReport reg (mkRawReport (groups.map mkGroupLine) tailStr) =
      (allRecords groups, none) := by
  have hls : ∀ l ∈ groups.map mkGroupLine, termFree l ∧ l ≠ [] := by
    intro l hl
    obtain ⟨g, hg, rfl⟩ := List.mem_map.mp hl
    exact termFree_mkGroupLine (hwf g hg)
  rw [parse_mk hls (occurs_false_iff.mp hocc), processLines_groups groups hwf]

/-- Witness for C1 at the spec's SSDP example: two addresses, two records. -/
theorem amplifier_C1_witness :
    parseAndReport regW
        (mkRawReport (exampleGroups.map mkGroupLine) (toL " of endpoints: 2")) =
      (allRecords exampleGroups, none) :=
  amplifier_C1_roundtrip regW exampleGroups (toL " of endpoints: 2")
    (by decide) (by decide)

/-- Claim C2: for every RawReport that does not contain
`Active endpoints:`, or does not contain `Total number` at or after the
position of `Active endpoints:`, the parse fails with the format error and
`report_service` is called zero times for that request. -/
theorem amplifier_C2_missingMarkers (reg : Registry) (out : List Char)
    (h : occurs markerA out = false ∨
      ∃ i, strFind markerA out = some i ∧ occursFrom markerT out i = false) :
    parseAndReport reg out = ([], some RunErr.formatErr) := by
  simp only [parseAndReport]
  rcases h with h | ⟨i, hsf, hocc⟩
  · have hA : pyFind out markerA 0 = -1 := by
      rw [pyFind_zero, occurs_false_iff.mp h]
    rw [hA, if_pos (Or.inl (by norm_num))]
  · have hi : i ≤ out.length := strFind_le_length hsf
    have hA : pyFind out markerA 0 = (i : Int) := by
      rw [pyFind_zero, hsf]
    have hT : pyFind out markerT ((i : Nat) : Int) = -1 := by
      rw [pyFind_natCast out markerT i hi,
        occurs_false_iff.mp (by exact hocc : occurs markerT (out.drop i) = false)]
    rw [hA, hT, if_pos (Or.inr (by norm_num))]

/-- Witness for C2 at the spec's `"no markers here"` example. -/
theorem amplifier_C2_witness :
    parseAndReport regW (toL "no markers here") = ([], some RunErr.formatErr) :=
  amplifier_C2_missingMarkers regW (toL "no markers here") (Or.inl (by decide))

/-- Claim C3 (amended): when a candidate line raises — e.g. a line whose
first stripped token has no colon — the exception is caught by the outer
broad handler and processing stops there, but the records already passed to
`report_service` for earlier groups (and earlier tokens) are NOT discarded:
the request reports exactly the records that precede the malformed element,
followed by nothing. -/
theorem amplifier_C3_prefixKept (reg : Registry) (groups : List Group)
    (bad : List Char) (rest : List (List Char)) (tailStr : List Char)
    (hwf : ∀ g ∈ groups, groupWF reg g)
    (hbadline : termFree bad ∧ bad ≠ [])
    (hrest : ∀ l ∈ rest, termFree l ∧ l ≠ [])
    {bs : List ServiceRecord} {e : RunErr}
    (hbad : processLine reg bad = (bs, some e))
    (hocc : occurs markerT
      (markerA ++ '\n' :: joinNL (groups.map mkGroupLine ++ bad :: rest)) = false) :
    parseAndReport reg
        (mkRawReport (groups.map mkGroupLine ++ bad :: rest) tailStr) =
      (allRecords groups ++ bs, some e) := by
  have hls : ∀ l ∈ groups.map mkGroupLine ++ bad :: rest, termFree l ∧ l ≠ [] := by
    intro l hl
    rcases List.mem_append.mp hl with h | h
    · obtain ⟨g, hg, rfl⟩ := List.mem_map.mp h
      exact termFree_mkGroupLine (hwf g hg)
    · rcases List.mem_cons.mp h with rfl | h
      · exact hbadline
      · exact hrest l h
  rw [parse_mk hls (occurs_false_iff.mp hocc),
    processLines_until_err hbad groups hwf]

/-- Witness for C3: a valid SSDP group line followed by the line `garbage`;
the two SSDP records stay reported, the `IndexError` is caught. -/
theorem amplifier_C3_witness :
    parseAndReport regW
        (mkRawReport (exampleGroups.map mkGroupLine ++ [toL "garbage"]) (toL "")) =
      (allRecords exampleGroups ++ [], some RunErr.indexErr) :=
  amplifier_C3_prefixKept regW exampleGroups (toL "garbage") [] (toL "")
    (by decide) (by decide) (by decide) (by decide) (by decide)

/-- Counterexample for C3 as stated: on a report whose candidate lines are a
valid SSDP group line and then `garbage` (no `Protocol.`, no colon), the
wrapper reports one record — not zero — even though the exception occurred
and was caught. -/
theorem amplifier_C3_cex :
    (parseAndReport regW reportBadLine).1 =
      [⟨toL "1.2.3.4", toL "1900", toL "ssdp", toL "udp"⟩] ∧
    (parseAndReport regW reportBadLine).2 = some RunErr.indexErr := by
  decide

/-- Claim C4 (amended): the registry lookup
`PROTOCOL_TESTERS[getattr(Protocol, proto_name)]` is an exact, case-sensitive
match: a name equal to a registered identifier resolves and the emitted
record lowercases both the protocol name and the transport, while a name that
is not registered verbatim (e.g. differing only in case) makes the lookup
raise, so the line yields no records and the error reaches the broad
handler. -/
theorem amplifier_C4_caseSensitive (reg : Registry) (name tr : List Char)
    (addrs : List (List Char × List Char)) (hname : ':' ∉ name)
    (haddrs : ∀ a ∈ addrs, addrWF a) (hne : addrs ≠ []) :
    (lookupTransport reg name = some tr →
      processLine reg (mkLine name addrs) = (recsFor name tr addrs, none)) ∧
    (lookupTransport reg name = none →
      processLine reg (mkLine name addrs) = ([], some RunErr.lookupErr)) :=
  ⟨fun hlt => processLine_mk hname hlt haddrs hne,
   fun hlt => processLine_mk_noLookup hname hlt haddrs hne⟩

/-- Witness for C4 at `SSDP`/`UDP` with one address. -/
theorem amplifier_C4_witness :
    (lookupTransport regW (toL "SSDP") = some (toL "UDP") →
      processLine regW (mkLine (toL "SSDP") [(toL "1.2.3.4", toL "1900")]) =
        (recsFor (toL "SSDP") (toL "UDP") [(toL "1.2.3.4", toL "1900")], none)) ∧
    (lookupTransport regW (toL "SSDP") = none →
      processLine regW (mkLine (toL "SSDP") [(toL "1.2.3.4", toL "1900")]) =
        ([], some RunErr.lookupErr)) :=
  amplifier_C4_caseSensitive regW (toL "SSDP") (toL "UDP")
    [(toL "1.2.3.4", toL "1900")] (by decide) (by decide) (by decide)

/-- Counterexample for C4 as stated: with `SSDP ↦ UDP` registered, the
case-variant line `Protocol.ssdp: [...]` does not resolve — the lookup
raises and the request reports nothing, instead of resolving to the same
transport. -/
theorem amplifier_C4_cex :
    lookupTransport regW (toL "SSDP") = some (toL "UDP") ∧
    lookupTransport regW (toL "ssdp") = none ∧
    parseAndReport regW reportLowerName = ([], some RunErr.lookupErr) := by
  decide

/-- Claim C5 (amended): the slice starts two characters past the beginning of
the `Active endpoints:` marker — inside the marker line — and ends one
character before `Total number`; the discarded first line of the slice is the
remainder of the marker line itself, so the candidate service-group lines are
ALL lines strictly between the marker line and the end marker, including any
sub-header line, which IS treated as a service-group line. -/
theorem amplifier_C5_candidates (ls : List (List Char)) (tailStr : List Char)
    (hls : ∀ l ∈ ls, termFree l ∧ l ≠ [])
    (hocc : occurs markerT (markerA ++ '\n' :: joinNL ls) = false) :
    protocolServices (mkRawReport ls tailStr) = ls :=
  candidates_mk hls (occurs_false_iff.mp hocc)

/-- Witness for C5: a sub-header line between the marker and a group line is
kept as a candidate. -/
theorem amplifier_C5_witness :
    protocolServices
        (mkRawReport [toL "SUBHDR", toL "Protocol.SSDP: ['1.2.3.4:1900']"]
          (toL " of endpoints: 1")) =
      [toL "SUBHDR", toL "Protocol.SSDP: ['1.2.3.4:1900']"] :=
  amplifier_C5_candidates _ _ (by decide) (by decide)

/-- Counterexample for C5 as stated: on a report with exactly one group line
between the markers, the claim's reading (slice excludes the marker lines and
the first line of the slice is a discarded sub-header) predicts zero
candidates and zero records, but the wrapper keeps the group line as a
candidate and reports its record. -/
theorem amplifier_C5_cex :
    claimCandidates reportOneGroup = [] ∧
    protocolServices reportOneGroup = [toL "Protocol.SSDP: ['1.2.3.4:1900']"] ∧
    (parseAndReport regW reportOneGroup).1 =
      [⟨toL "1.2.3.4", toL "1900", toL "ssdp", toL "udp"⟩] := by
  decide

/-- Claim C6 (amended): each address token is stripped of surrounding space
and quote characters and split on every colon: the emitted ip is the text
before the first colon, and the emitted port is the text strictly between the
first and the second colon — which is the entire remainder exactly when the
token contains a single colon. -/
theorem amplifier_C6_portSegment (reg : Registry) (name tr tok x y z : List Char)
    (hlt : lookupTransport reg name = some tr)
    (hstrip : pyStrip stripChars tok = x ++ ':' :: (y ++ z))
    (hx : ':' ∉ x) (hy : ':' ∉ y)
    (hz : z = [] ∨ ∃ w, z = ':' :: w) :
    processTokens reg name [tok] =
      ([⟨x, y, asciiLower name, asciiLower tr⟩], none) := by
  simp only [processTokens]
  rw [hstrip]
  rcases hz with rfl | ⟨w, rfl⟩
  · rw [show x ++ ':' :: (y ++ []) = x ++ ':' :: y from by simp,
      pySplit_colon_token hx hy]
    simp [hlt, processTokens]
  · rw [pySplit_mid hx, pySplitAux_mid hy [] w]
    simp [hlt, processTokens]

/-- Witness for C6 at the two-colon token `'a:b:c'`: ip `a`, port `b`. -/
theorem amplifier_C6_witness :
    processTokens regW (toL "SSDP") [toL "'a:b:c'"] =
      ([⟨toL "a", toL "b", toL "ssdp", toL "udp"⟩], none) := by
  have h := amplifier_C6_portSegment regW (toL "SSDP") (toL "UDP")
    (toL "'a:b:c'") (toL "a") (toL "b") (toL ":c")
    (by decide) (by decide) (by decide) (by decide)
    (Or.inr ⟨toL "c", by decide⟩)
  rw [h]
  decide

/-- Counterexample for C6 as stated: for the token `'a:b:c'` the wrapper
emits port `b`, while "the entire text after the first colon" of the stripped
token is `b:c`. -/
theorem amplifier_C6_cex :
    (processTokens regW (toL "SSDP") [toL "'a:b:c'"]).1.map ServiceRecord.port =
      [toL "b"] ∧
    (specSplitOnce (pyStrip stripChars (toL "'a:b:c'"))).2 = toL "b:c" ∧
    (toL "b" : List Char) ≠ toL "b:c" := by
  decide

/-- Claim C7: whenever both markers are found and the computed candidate
list between them is empty, the parse succeeds: no records and no error. -/
theorem amplifier_C7_emptySection (reg : Registry) (out : List Char)
    (h1 : 0 ≤ pyFind out markerA 0)
    (h2 : 0 ≤ pyFind out markerT (pyFind out markerA 0))
    (h3 : protocolServices out = []) :
    parseAndReport reg out = ([], none) := by
  simp only [parseAndReport]
  rw [if_neg (by omega), h3]
  rfl

/-- Witness for C7 at a report whose markers are on adjacent lines. -/
theorem amplifier_C7_witness :
    parseAndReport regW (toL "Active endpoints:\nTotal number") = ([], none) :=
  amplifier_C7_emptySection regW (toL "Active endpoints:\nTotal number")
    (by decide) (by decide) (by decide)

/-- Claim C8: for every args mapping containing `RHOSTS`, `run` returns
normally — no exception escapes it — for every dependency state, registry,
and engine behavior (including an engine that raises). -/
theorem amplifier_C8_noEscape (deps : Bool) (reg : Registry) (engine : Engine)
    (args : Args) (host : List Char) (h : args.rhosts = some host) :
    (run deps reg engine args).isSome := by
  simp only [run, h]
  cases deps
  · cases engine (host :: (match args.rports with
      | some p => if p = [] then [] else [p]
      | none => [])) <;> simp
  · simp

/-- Witness for C8 with a trivial engine. -/
theorem amplifier_C8_witness :
    (run false regW (fun _ => Except.ok [])
      ⟨some (toL "10.0.0.1"), none⟩).isSome :=
  amplifier_C8_noEscape false regW (fun _ => Except.ok [])
    ⟨some (toL "10.0.0.1"), none⟩ (toL "10.0.0.1") rfl

/-- Claim C9: when the missing-dependency flag is set, `run` logs exactly one
error and returns immediately: the engine is never invoked and
`report_service` is never called, for every request carrying `RHOSTS`. -/
theorem amplifier_C9_depsMissing (reg : Registry) (engine : Engine)
    (args : Args) (host : List Char) (h : args.rhosts = some host) :
    run true reg engine args = some ⟨[], [], 1⟩ := by
  simp [run, h]

/-- Witness for C9. -/
theorem amplifier_C9_witness :
    run true regW (fun _ => Except.ok []) ⟨some (toL "10.0.0.1"), none⟩ =
      some ⟨[], [], 1⟩ :=
  amplifier_C9_depsMissing regW (fun _ => Except.ok [])
    ⟨some (toL "10.0.0.1"), none⟩ (toL "10.0.0.1") rfl

/-- Claim C10: the argument list passed to the external engine is exactly
`[RHOSTS]` when `RPORTS` is absent or empty, and exactly `[RHOSTS, RPORTS]`
when present and non-empty. -/
theorem amplifier_C10_parameters (reg : Registry) (engine : Engine)
    (args : Args) (host : List Char) (h : args.rhosts = some host) :
    ((args.rports = none ∨ args.rports = some []) →
      (run false reg engine args).map RunResult.engineCalls = some [[host]]) ∧
    (∀ p, args.rports = some p → p ≠ [] →
      (run false reg engine args).map RunResult.engineCalls =
        some [[host, p]]) := by
  constructor
  · intro hp
    rcases hp with hp | hp <;>
      simp only [run, h, hp] <;>
      rcases he : engine [host] with e | o <;>
      simp [he]
  · intro p hp hne
    simp only [run, h, hp]
    rw [if_neg hne]
    rcases he : engine [host, p] with e | o <;> simp [he]

/-- Witness for C10 with a present, non-empty `RPORTS`. -/
theorem amplifier_C10_witness :
    (run false regW (fun _ => Except.ok [])
        ⟨some (toL "h"), some (toL "99")⟩).map RunResult.engineCalls =
      some [[toL "h", toL "99"]] :=
  (amplifier_C10_parameters regW (fun _ => Except.ok [])
    ⟨some (toL "h"), some (toL "99")⟩ (toL "h") rfl).2 (toL "99") rfl (by decide)
